import Mathlib

/-! Verification of the qwe tracking and versioning engine against its
natural-language specification.  The Go sources under tracker/, display/
and the initializer and diff test files are embedded shallowly: Go maps
become association lists with replace-or-append insertion, the on-disk
registry file becomes an explicit state value threaded through each
operation, and fallible operations return Except values. -/

namespace Qwe

/-! ## Go map model

Go maps keyed by strings are modelled as association lists.  Assignment
m[k] = v replaces the value of an existing key in place and otherwise
appends; lookup returns the binding of the first (hence unique) match. -/

abbrev Identifier := String

def mapSet {β : Type} (m : List (String × β)) (k : String) (v : β) :
    List (String × β) :=
  match m with
  | [] => [(k, v)]
  | (k₁, v₁) :: rest =>
      if k₁ = k then (k, v) :: rest else (k₁, v₁) :: mapSet rest k v

def mapGet {β : Type} (m : List (String × β)) (k : String) : Option β :=
  match m with
  | [] => none
  | (k₁, v₁) :: rest => if k₁ = k then some v₁ else mapGet rest k

def keys {β : Type} (m : List (String × β)) : List String := m.map Prod.fst

def NodupKeys {β : Type} (m : List (String × β)) : Prop := (keys m).Nodup

instance {β : Type} (m : List (String × β)) : Decidable (NodupKeys m) := by
  unfold NodupKeys; infer_instance

/-- The number of records of a map bound to a given key. -/
def countKey {β : Type} (m : List (String × β)) (k : String) : Nat :=
  (keys m).count k

/-- Building a Go map from a sequence of insertions, as json.Unmarshal does
when it decodes an object into a map (later duplicate keys overwrite). -/
def goMapOfList {β : Type} (l : List (String × β)) : List (String × β) :=
  l.foldl (fun m kv => mapSet m kv.1 kv.2) []

/-- json.MarshalIndent serializes a Go map with its keys in sorted order. -/
def sortByKey {β : Type} (m : List (String × β)) : List (String × β) :=
  List.insertionSort (fun a b => a.1 ≤ b.1) m

/-! ## Errors

The sentinel error kinds surfaced by the engine (qwerror package and the
ad hoc argument-validation error of the diff package). -/

inductive QweError where
  | repoNotFound
  | repoAlreadyInit
  | grpAlreadyTracked
  | fileNotTracked
  | argumentMismatch
  | objectNotFound
  | versionNotFound
  | parseFailure
  | ioFailure
  | corruptObject
deriving DecidableEq, Repr

/-! ## Tracker registry data model (src/tracker/tracked-files.go) -/

structure TrackFile where
  filePath : String
deriving DecidableEq, Repr

def NewTrackFile (filepath : String) : TrackFile := ⟨filepath⟩

abbrev TrackFiles := List (Identifier × TrackFile)

/-- The byte content of the registry file.  Well-formed content is a JSON
object, i.e. a sequence of key-record pairs; anything else is malformed.
A direct (non-atomic) file write passes through a truncated intermediate
state, recorded by the truncatedWrite constructor. -/
inductive RegContent where
  | json (entries : TrackFiles)
  | malformed
  | truncatedWrite (full : RegContent)
deriving DecidableEq, Repr

/-- An on-disk registry file.  depth counts how many times the bytes have
been gzip-wrapped: the at-rest form has depth 1, a transiently
decompressed file has depth 0. -/
structure RegFile where
  depth : Nat
  content : RegContent
deriving DecidableEq, Repr

/-- Modelled from the spec: compress(path) of the compressor package
(not under src/), in-place gzip of the whole file.  Compressing a missing
file fails with an I/O error; otherwise the bytes gain one gzip layer. -/
def CompressFile : Option RegFile → Except QweError (Option RegFile)
  | none => .error .ioFailure
  | some f => .ok (some ⟨f.depth + 1, f.content⟩)

/-- Modelled from the spec: decompress(path) of the compressor package
(not under src/), in-place gzip decoding.  Decompressing a missing file
fails (the tracker test TestLoadTrackedFilesFromFile_NonExistentFile
states that decompression fails for non-existent files); decoding a file
that is not gzip-wrapped fails with a corrupt-payload error. -/
def DecompressFile : Option RegFile → Except QweError (Option RegFile)
  | none => .error .ioFailure
  | some f =>
      match f.depth with
      | 0 => .error .corruptObject
      | d + 1 => .ok (some ⟨d, f.content⟩)

/-- json.Unmarshal of the registry file bytes into a Go map: still
gzip-wrapped or otherwise malformed bytes fail, a JSON object yields the
map built by successive insertions. -/
def jsonUnmarshal (f : RegFile) : Except QweError TrackFiles :=
  match f.depth with
  | _ + 1 => .error .parseFailure
  | 0 =>
      match f.content with
      | .json entries => .ok (goMapOfList entries)
      | _ => .error .parseFailure

instance {ε α : Type} [DecidableEq ε] [DecidableEq α] :
    DecidableEq (Except ε α) := fun a b =>
  match a, b with
  | .error e₁, .error e₂ =>
      if h : e₁ = e₂ then .isTrue (by rw [h]) else .isFalse (by simp [h])
  | .error _, .ok _ => .isFalse (by simp)
  | .ok _, .error _ => .isFalse (by simp)
  | .ok v₁, .ok v₂ =>
      if h : v₁ = v₂ then .isTrue (by rw [h]) else .isFalse (by simp [h])

/-- Result of LoadTrackedFilesFromFile: the returned value and the state
the registry file is left in. -/
structure LoadResult where
  result : Except QweError TrackFiles
  file : Option RegFile
deriving DecidableEq, Repr

/-- Embeds LoadTrackedFilesFromFile (src/tracker/tracked-files.go lines
284 to 310): decompress in place, stat (returning an empty map when the
file does not exist), read, unmarshal, and re-compress; each failing step
returns immediately with the file left as it is at that point. -/
def LoadTrackedFilesFromFile (file : Option RegFile) : LoadResult :=
  match DecompressFile file with
  | .error e => ⟨.error e, file⟩
  | .ok decompressed =>
      match decompressed with
      | none => ⟨.ok [], none⟩
      | some f =>
          match jsonUnmarshal f with
          | .error e => ⟨.error e, some f⟩
          | .ok tfs =>
              match CompressFile (some f) with
              | .error e => ⟨.error e, some f⟩
              | .ok f₂ => ⟨.ok tfs, f₂⟩

/-! ## Filesystem steps for the persistence paths

Save and InitTrackedFiles are embedded as sequences of filesystem steps
on a two-slot state (the target registry path and its .tmp sibling), so
that the intermediate states observable during each operation can be
enumerated.  os.WriteFile is not atomic: a direct write exposes a
truncated intermediate state of the destination; os.Rename is atomic. -/

structure QweFS where
  target : Option RegFile
  tmp : Option RegFile
deriving DecidableEq, Repr

inductive FsStep where
  | writeTmp (c : RegContent)
  | writeTarget (c : RegContent)
  | renameTmpToTarget
  | compressTarget
deriving DecidableEq, Repr

def applyStep (fs : QweFS) : FsStep → QweFS
  | .writeTmp c => { fs with tmp := some ⟨0, c⟩ }
  | .writeTarget c => { fs with target := some ⟨0, c⟩ }
  | .renameTmpToTarget => { target := fs.tmp, tmp := none }
  | .compressTarget =>
      { fs with target := fs.target.map fun f => ⟨f.depth + 1, f.content⟩ }

def applySteps (fs : QweFS) (steps : List FsStep) : QweFS :=
  steps.foldl applyStep fs

/-- The filesystem states observable while one step executes.  A direct
write passes through a truncated state of its destination before the full
content lands; rename and the in-place compression primitive are taken as
atomic transitions. -/
def stepMicroStates (fs : QweFS) : FsStep → List QweFS
  | .writeTmp c =>
      [{ fs with tmp := some ⟨0, .truncatedWrite c⟩ },
       { fs with tmp := some ⟨0, c⟩ }]
  | .writeTarget c =>
      [{ fs with target := some ⟨0, .truncatedWrite c⟩ },
       { fs with target := some ⟨0, c⟩ }]
  | .renameTmpToTarget => [applyStep fs .renameTmpToTarget]
  | .compressTarget => [applyStep fs .compressTarget]

def traceStates (fs : QweFS) : List FsStep → List QweFS
  | [] => []
  | s :: rest => stepMicroStates fs s ++ traceStates (applyStep fs s) rest

/-- The sequence of values the target path takes on while a step list
executes, starting from the initial state. -/
def targetStates (fs : QweFS) (steps : List FsStep) : List (Option RegFile) :=
  fs.target :: (traceStates fs steps).map QweFS.target

/-- json.MarshalIndent of the registry: a JSON object with the map keys
in sorted order. -/
def serializeTrackFiles (tf : TrackFiles) : RegContent := .json (sortByKey tf)

/-- Embeds TrackFiles.Save (src/tracker/tracked-files.go lines 143 to
165) as its step sequence: write the serialized bytes to the .tmp
sibling, rename it over the target, then compress the target in place. -/
def saveSteps (tf : TrackFiles) : List FsStep :=
  [.writeTmp (serializeTrackFiles tf), .renameTmpToTarget, .compressTarget]

def Save (tf : TrackFiles) (fs : QweFS) : QweFS :=
  applySteps fs (saveSteps tf)

/-- Embeds InitTrackedFiles (src/tracker/tracked-files.go lines 167 to
178) as its step sequence: os.WriteFile writes the empty JSON object
directly to the target path, then the target is compressed in place. -/
def initTrackedFilesSteps : List FsStep :=
  [.writeTarget (.json []), .compressTarget]

def InitTrackedFiles (fs : QweFS) : QweFS :=
  applySteps fs initTrackedFilesSteps

/-- Embeds UpdateTrackedFile (src/tracker/tracked-files.go lines 180 to
197): load the registry from the target file, assign the record for
fileId, and Save the result; a load failure is returned as is, with the
file in whatever state the failed load left it. -/
def UpdateTrackedFile (fileId filePath : String) (fs : QweFS) :
    Except QweError QweFS :=
  match LoadTrackedFilesFromFile fs.target with
  | ⟨.error e, _⟩ => .error e
  | ⟨.ok tfs, f₁⟩ =>
      .ok (Save (mapSet tfs fileId (NewTrackFile filePath))
        { fs with target := f₁ })

/-! ## Directory scan (src/tracker/tracked-files.go lines 239 to 281) -/

/-- Modelled from the spec: hash(name) of the qweutils package (not under
src/), a pure deterministic digest of a naming input.  The exact digest
is immaterial to the claims, which only use determinism, so it is
modelled as an injective tagging of the name. -/
def Hasher (name : String) : Identifier := "id:" ++ name

/-- The excluded-directory set of src/tracker/tracked-files.go lines 24
to 27. -/
def excludedDirs : List String := [".git", ".qwe"]

/-- Embeds isExcludedDir (src/tracker/tracked-files.go lines 312 to
315). -/
def isExcludedDir (name : String) : Bool := excludedDirs.contains name

mutual
inductive FsEntry where
  | file (name : String)
  | dir (name : String) (children : FsEntries)
inductive FsEntries where
  | nil
  | cons (e : FsEntry) (es : FsEntries)
end

/-- A filesystem path as its list of name components below the walk
root.  filepath.WalkDir reports the components joined by the path
separator; directory-entry names contain no separator, so the component
list and the reported path string determine each other. -/
abbrev FsPath := List String

mutual
/-- Embeds the filepath.WalkDir traversal of findTrackedFilesInCurrDir:
the callback sees every file in depth-first order, except that a
directory whose base name is excluded returns fs.SkipDir, so its whole
subtree is skipped.  Each visited file is reported as its base name
paired with its full path. -/
def visitedFiles (pfx : FsPath) : FsEntry → List (String × FsPath)
  | .file name => [(name, pfx ++ [name])]
  | .dir name children =>
      if isExcludedDir name then []
      else visitedFilesList (pfx ++ [name]) children
def visitedFilesList (pfx : FsPath) : FsEntries → List (String × FsPath)
  | .nil => []
  | .cons e es => visitedFiles pfx e ++ visitedFilesList pfx es
end

mutual
/-- All file paths in the tree, with no exclusion applied. -/
def allFiles (pfx : FsPath) : FsEntry → List FsPath
  | .file name => [pfx ++ [name]]
  | .dir name children => allFilesList (pfx ++ [name]) children
def allFilesList (pfx : FsPath) : FsEntries → List FsPath
  | .nil => []
  | .cons e es => allFiles pfx e ++ allFilesList pfx es
end

mutual
/-- The file paths that lie beneath some excluded directory of the
tree. -/
def excludedSubtreeFiles (pfx : FsPath) : FsEntry → List FsPath
  | .file _ => []
  | .dir name children =>
      if isExcludedDir name then allFilesList (pfx ++ [name]) children
      else excludedSubtreeFilesList (pfx ++ [name]) children
def excludedSubtreeFilesList (pfx : FsPath) : FsEntries → List FsPath
  | .nil => []
  | .cons e es =>
      excludedSubtreeFiles pfx e ++ excludedSubtreeFilesList pfx es
end

/-- Embeds the body of the findTrackedFilesInCurrDir callback for files:
the Identifier of the base name is computed, and the file is recorded
exactly when that Identifier already has a tracker record. -/
def scanRecords (tracker : List Identifier) (pfx : FsPath)
    (e : FsEntry) : List (Identifier × FsPath) :=
  (visitedFiles pfx e).filterMap fun bp =>
    if Hasher bp.1 ∈ tracker then some (Hasher bp.1, bp.2) else none

/-- Embeds findTrackedFilesInCurrDir (src/tracker/tracked-files.go lines
239 to 281): the registry built by successive Go map assignments from
the recorded files, in traversal order. -/
def findTrackedFilesInCurrDir (tracker : List Identifier)
    (pfx : FsPath) (e : FsEntry) : List (Identifier × FsPath) :=
  goMapOfList (scanRecords tracker pfx e)

/-! ## Display layer (src/display/tracked-files.go) -/

def MaxCommitMessageLen : Nat := 60
def CommitMessageTruncLen : Nat := 57

/-- A Go string is a byte array; len and slicing act on bytes. -/
abbrev GoBytes := List Nat

/-- The three bytes of the literal "..." appended to truncated
messages. -/
def ellipsisBytes : GoBytes := [46, 46, 46]

/-- Embeds truncateMsg (src/display/tracked-files.go lines 247 to 252):
messages longer than MaxCommitMessageLen bytes are cut to their first
CommitMessageTruncLen bytes followed by the three-byte ellipsis. -/
def truncateMsg (msg : GoBytes) : GoBytes :=
  if msg.length > MaxCommitMessageLen then
    msg.take CommitMessageTruncLen ++ ellipsisBytes
  else msg

/-! ## Group and version history (spec sections 3 and 4.4)

The initializer package implementation is not under src/ (only its tests
are), so the repository and group state and the GroupInit and Diff entry
points are modelled from the spec, with the sentinel errors and state
shape fixed by the initializer and diff tests. -/

structure Version where
  commitMessage : String
  timeStamp : String
  files : List (Identifier × String)
deriving DecidableEq, Repr

structure Group where
  groupName : String
  versions : List (String × Version)
  versionOrder : List String
  current : String
deriving DecidableEq, Repr

structure RepoState where
  initialized : Bool
  groups : List (String × Group)
deriving DecidableEq, Repr

/-- Modelled from the spec: GroupInit(name) of the initializer package
(not under src/), spec section 4.4.  Every group operation is gated on
the repository being initialized (RepoNotFound otherwise); a name whose
groupId is already present fails with GrpAlreadyTracked; otherwise the
group is created with exactly one Version (commit message Initial
Tracking, empty files), current pointing at it, and a singleton
versionOrder.  The fresh version id and the timestamp are supplied by
the caller. -/
def GroupInit (st : RepoState) (name vid ts : String) :
    Except QweError RepoState :=
  if !st.initialized then .error .repoNotFound
  else if (mapGet st.groups (Hasher name)).isSome then
    .error .grpAlreadyTracked
  else
    .ok { st with
      groups := mapSet st.groups (Hasher name)
        { groupName := name
          versions := [(vid, ⟨"Initial Tracking", ts, []⟩)]
          versionOrder := [vid]
          current := vid } }

/-- Modelled from the spec: versionAt lookup used by the two-version
diff, spec section 4.4 — the Version with the given id, searched across
the recorded groups. -/
def findVersion (st : RepoState) (vid : String) : Option Version :=
  st.groups.foldr
    (fun g acc => match mapGet g.2.versions vid with
      | some v => some v
      | none => acc)
    none

/-- The base name of a path: the component after the last slash, as
filepath.Base produces for the names hashed by the scan and the diff. -/
def baseName (path : String) : String :=
  match (path.splitOn "/").getLast? with
  | some last => last
  | none => path

/-- Modelled from the spec: Diff(filePath, versionIdA, versionIdB) of the
diff package (not under src/), spec section 4.6.  Argument shape is
validated first (the diff tests exercise it in an uninitialized
directory): exactly one empty version id fails with the argument
mismatch error.  Then the entry point is gated on repository presence;
then the file must have a record in the tracker registry, else
FileNotTracked.  With both ids empty the working-tree diff proceeds;
with both non-empty each id must resolve to a Version (VersionNotFound
otherwise) holding an entry for the file (FileNotTracked otherwise).
The edit script itself is abstracted to a unit result. -/
def Diff (st : RepoState) (reg : TrackFiles) (path vidA vidB : String) :
    Except QweError Unit :=
  if (vidA = "" && vidB != "") || (vidA != "" && vidB = "") then
    .error .argumentMismatch
  else if !st.initialized then .error .repoNotFound
  else
    match mapGet reg (Hasher (baseName path)) with
    | none => .error .fileNotTracked
    | some _ =>
        if vidA = "" && vidB = "" then .ok ()
        else
          match findVersion st vidA, findVersion st vidB with
          | none, _ => .error .versionNotFound
          | _, none => .error .versionNotFound
          | some va, some vb =>
              if (mapGet va.files (Hasher (baseName path))).isNone ||
                  (mapGet vb.files (Hasher (baseName path))).isNone then
                .error .fileNotTracked
              else .ok ()

/-! ## Auxiliary state values and predicates -/

/-- The filesystem of a fresh repository directory: no registry file and
no leftover temporary file. -/
def fsEmpty : QweFS := ⟨none, none⟩

/-- The at-rest invariant of a structured file: if present, its bytes
carry at least one gzip layer. -/
def compressedAtRest : Option RegFile → Prop
  | none => True
  | some f => 0 < f.depth

instance (f : Option RegFile) : Decidable (compressedAtRest f) := by
  unfold compressedAtRest
  match f with
  | none => exact inferInstance
  | some _ => exact inferInstance

/-- Exactly one of the two version-id arguments of Diff is empty. -/
def exactlyOneEmpty (a b : String) : Prop :=
  (a = "" ∧ b ≠ "") ∨ (a ≠ "" ∧ b = "")

/-! ## Lemmas about the Go map model -/

theorem mapGet_mapSet_self {β : Type} (m : List (String × β)) (k : String)
    (v : β) : mapGet (mapSet m k v) k = some v := by
  induction m with
  | nil => simp [mapSet, mapGet]
  | cons hd tl ih =>
      obtain ⟨k₁, v₁⟩ := hd
      by_cases h : k₁ = k
      · simp [mapSet, mapGet, h]
      · simp [mapSet, mapGet, h, ih]

theorem mapGet_mapSet_ne {β : Type} (m : List (String × β)) {k k₂ : String}
    (v : β) (h : k₂ ≠ k) : mapGet (mapSet m k v) k₂ = mapGet m k₂ := by
  have h' : ¬k = k₂ := fun hh => h hh.symm
  induction m with
  | nil => simp [mapSet, mapGet, h']
  | cons hd tl ih =>
      obtain ⟨k₁, v₁⟩ := hd
      by_cases h₁ : k₁ = k
      · subst h₁
        simp [mapSet, mapGet, h']
      · by_cases h₂ : k₁ = k₂ <;> simp [mapSet, mapGet, h₁, h₂, h, h', ih]

theorem mapSet_of_not_mem_keys {β : Type} {m : List (String × β)}
    {k : String} (v : β) (h : k ∉ keys m) :
    mapSet m k v = m ++ [(k, v)] := by
  induction m with
  | nil => simp [mapSet]
  | cons hd tl ih =>
      obtain ⟨k₁, v₁⟩ := hd
      simp only [keys, List.map_cons, List.mem_cons] at h
      push_neg at h
      have hne : ¬k₁ = k := fun hh => h.1 hh.symm
      simp [mapSet, hne, ih (by simpa [keys] using h.2)]

theorem keys_mapSet_of_mem {β : Type} {m : List (String × β)} {k : String}
    (v : β) (h : k ∈ keys m) : keys (mapSet m k v) = keys m := by
  induction m with
  | nil => simp [keys] at h
  | cons hd tl ih =>
      obtain ⟨k₁, v₁⟩ := hd
      by_cases h₁ : k₁ = k
      · simp [mapSet, keys, h₁]
      · simp only [keys, List.map_cons, List.mem_cons] at h
        rcases h with h | h
        · exact absurd h.symm h₁
        · have := ih (by simpa [keys] using h)
          simp only [keys] at this
          simp [mapSet, keys, h₁, this]

theorem nodupKeys_cons {β : Type} {x : String × β} {m : List (String × β)} :
    NodupKeys (x :: m) ↔ x.1 ∉ keys m ∧ NodupKeys m := by
  simp [NodupKeys, keys]

theorem nodupKeys_mapSet {β : Type} {m : List (String × β)} (k : String)
    (v : β) (h : NodupKeys m) : NodupKeys (mapSet m k v) := by
  by_cases hk : k ∈ keys m
  · unfold NodupKeys
    rw [keys_mapSet_of_mem v hk]
    exact h
  · unfold NodupKeys
    rw [mapSet_of_not_mem_keys v hk]
    unfold NodupKeys at h
    simp [keys, List.nodup_append]
    exact ⟨h, by simpa [keys] using hk⟩

theorem countKey_eq_zero_of_not_mem {β : Type} {m : List (String × β)}
    {k : String} (h : k ∉ keys m) : countKey m k = 0 :=
  List.count_eq_zero.mpr h

theorem countKey_mapSet_self {β : Type} {m : List (String × β)} (k : String)
    (v : β) (h : NodupKeys m) : countKey (mapSet m k v) k = 1 := by
  by_cases hk : k ∈ keys m
  · unfold countKey
    rw [keys_mapSet_of_mem v hk]
    exact List.count_eq_one_of_mem h hk
  · unfold countKey
    rw [mapSet_of_not_mem_keys v hk]
    have h0 : List.count k (keys m) = 0 := List.count_eq_zero.mpr hk
    simp only [keys] at h0
    simp [keys, h0]

theorem foldl_mapSet_eq_append {β : Type} (l : List (String × β)) :
    ∀ m₀, NodupKeys (m₀ ++ l) →
      l.foldl (fun m kv => mapSet m kv.1 kv.2) m₀ = m₀ ++ l := by
  induction l with
  | nil => intro m₀ _; simp
  | cons hd tl ih =>
      intro m₀ h
      have hkeys : keys (m₀ ++ hd :: tl) = keys m₀ ++ hd.1 :: keys tl := by
        simp [keys]
      have hnd : (keys m₀ ++ hd.1 :: keys tl).Nodup := by
        unfold NodupKeys at h
        rwa [hkeys] at h
      have hk : hd.1 ∉ keys m₀ := by
        rw [List.nodup_append] at hnd
        intro hmem
        exact hnd.2.2 hmem (by simp)
      rw [List.foldl_cons, mapSet_of_not_mem_keys hd.2 hk]
      have h₂ : NodupKeys ((m₀ ++ [(hd.1, hd.2)]) ++ tl) := by
        unfold NodupKeys at h ⊢
        simpa [keys, List.append_assoc] using h
      have := ih (m₀ ++ [(hd.1, hd.2)]) h₂
      simpa [List.append_assoc] using this

theorem goMapOfList_of_nodupKeys {β : Type} {l : List (String × β)}
    (h : NodupKeys l) : goMapOfList l = l := by
  have := foldl_mapSet_eq_append l [] (by simpa using h)
  simpa [goMapOfList] using this

theorem sortByKey_perm {β : Type} (m : List (String × β)) :
    (sortByKey m).Perm m :=
  List.perm_insertionSort _ m

theorem nodupKeys_of_perm {β : Type} {m₁ m₂ : List (String × β)}
    (h : m₁.Perm m₂) (hn : NodupKeys m₁) : NodupKeys m₂ :=
  (h.map Prod.fst).nodup hn

theorem mapGet_eq_of_perm {β : Type} {m₁ m₂ : List (String × β)}
    (h : m₁.Perm m₂) (hn : NodupKeys m₁) (k : String) :
    mapGet m₁ k = mapGet m₂ k := by
  induction h with
  | nil => rfl
  | cons x hp ih =>
      obtain ⟨k₁, v₁⟩ := x
      rw [nodupKeys_cons] at hn
      by_cases h₁ : k₁ = k <;> simp [mapGet, h₁, ih hn.2]
  | swap x y l =>
      obtain ⟨kx, vx⟩ := x
      obtain ⟨ky, vy⟩ := y
      rw [nodupKeys_cons] at hn
      have hne : ¬ky = kx := fun hh => hn.1 (by simp [keys, hh])
      by_cases hx : kx = k
      · subst hx
        simp [mapGet, hne]
      · by_cases hy : ky = k <;> simp [mapGet, hx, hy]
  | trans h₁ h₂ ih₁ ih₂ =>
      rw [ih₁ hn, ih₂ (nodupKeys_of_perm h₁ hn)]

theorem countKey_eq_of_perm {β : Type} {m₁ m₂ : List (String × β)}
    (h : m₁.Perm m₂) (k : String) : countKey m₁ k = countKey m₂ k :=
  (h.map Prod.fst).count_eq k

theorem mapGet_foldl_mapSet_mem {β : Type} (l : List (String × β)) :
    ∀ (m₀ : List (String × β)) (k : String) (v : β),
      mapGet (l.foldl (fun m kv => mapSet m kv.1 kv.2) m₀) k = some v →
      (k, v) ∈ l ∨ mapGet m₀ k = some v := by
  induction l with
  | nil => intro m₀ k v h; exact .inr h
  | cons hd tl ih =>
      intro m₀ k v h
      rcases ih (mapSet m₀ hd.1 hd.2) k v h with h₂ | h₂
      · exact .inl (List.mem_cons_of_mem _ h₂)
      · by_cases hk : k = hd.1
        · subst hk
          rw [mapGet_mapSet_self] at h₂
          left
          obtain ⟨rfl⟩ : hd.2 = v := by injection h₂
          exact List.mem_cons_self _ _
        · rw [mapGet_mapSet_ne _ _ hk] at h₂
          exact .inr h₂

theorem mapGet_goMapOfList_mem {β : Type} {l : List (String × β)}
    {k : String} {v : β} (h : mapGet (goMapOfList l) k = some v) :
    (k, v) ∈ l := by
  rcases mapGet_foldl_mapSet_mem l [] k v h with h₂ | h₂
  · exact h₂
  · simp [mapGet] at h₂

/-! ## Lemmas about the directory walk

A path reported by the walk decomposes as the prefix followed by a
non-empty run of components none of whose directory components (all but
the last) is excluded; a path beneath an excluded directory decomposes
with some excluded directory component.  The two shapes are incompatible,
which gives the exclusion property of the scan. -/

mutual
theorem visitedFiles_clean (pfx : FsPath) (e : FsEntry) :
    ∀ bp ∈ visitedFiles pfx e, ∃ rest, bp.2 = pfx ++ rest ∧ rest ≠ [] ∧
      ∀ c ∈ rest.dropLast, isExcludedDir c = false := by
  match e with
  | .file name =>
      intro bp hbp
      simp [visitedFiles] at hbp
      exact ⟨[name], by simp [hbp], by simp, by simp [hbp]⟩
  | .dir name children =>
      intro bp hbp
      by_cases hex : isExcludedDir name
      · simp [visitedFiles, hex] at hbp
      · simp only [visitedFiles, hex, Bool.false_eq_true, if_false] at hbp
        obtain ⟨rest, hr, hne, hclean⟩ :=
          visitedFilesList_clean (pfx ++ [name]) children bp hbp
        refine ⟨name :: rest, by simp [hr], by simp, ?_⟩
        intro c hc
        rw [List.dropLast_cons_of_ne_nil hne] at hc
        rcases List.mem_cons.mp hc with rfl | hc
        · simpa using hex
        · exact hclean c hc
theorem visitedFilesList_clean (pfx : FsPath) (es : FsEntries) :
    ∀ bp ∈ visitedFilesList pfx es, ∃ rest, bp.2 = pfx ++ rest ∧
      rest ≠ [] ∧ ∀ c ∈ rest.dropLast, isExcludedDir c = false := by
  match es with
  | .nil => intro bp hbp; simp [visitedFilesList] at hbp
  | .cons e es =>
      intro bp hbp
      rcases List.mem_append.mp hbp with h | h
      · exact visitedFiles_clean pfx e bp h
      · exact visitedFilesList_clean pfx es bp h
end

mutual
theorem allFiles_shape (pfx : FsPath) (e : FsEntry) :
    ∀ p ∈ allFiles pfx e, ∃ rest, p = pfx ++ rest ∧ rest ≠ [] := by
  match e with
  | .file name =>
      intro p hp
      simp [allFiles] at hp
      exact ⟨[name], by simp [hp], by simp⟩
  | .dir name children =>
      intro p hp
      obtain ⟨rest, hr, hne⟩ :=
        allFilesList_shape (pfx ++ [name]) children p hp
      exact ⟨name :: rest, by simp [hr], by simp⟩
theorem allFilesList_shape (pfx : FsPath) (es : FsEntries) :
    ∀ p ∈ allFilesList pfx es, ∃ rest, p = pfx ++ rest ∧ rest ≠ [] := by
  match es with
  | .nil => intro p hp; simp [allFilesList] at hp
  | .cons e es =>
      intro p hp
      rcases List.mem_append.mp hp with h | h
      · exact allFiles_shape pfx e p h
      · exact allFilesList_shape pfx es p h
end

mutual
theorem excludedSubtreeFiles_dirty (pfx : FsPath) (e : FsEntry) :
    ∀ p ∈ excludedSubtreeFiles pfx e, ∃ rest, p = pfx ++ rest ∧
      ∃ c ∈ rest.dropLast, isExcludedDir c = true := by
  match e with
  | .file name => intro p hp; simp [excludedSubtreeFiles] at hp
  | .dir name children =>
      intro p hp
      by_cases hex : isExcludedDir name
      · simp only [excludedSubtreeFiles, hex, if_true] at hp
        obtain ⟨rest, hr, hne⟩ :=
          allFilesList_shape (pfx ++ [name]) children p hp
        refine ⟨name :: rest, by simp [hr], name, ?_, hex⟩
        rw [List.dropLast_cons_of_ne_nil hne]
        simp
      · simp only [excludedSubtreeFiles, hex, Bool.false_eq_true,
          if_false] at hp
        obtain ⟨rest, hr, c, hc, hcex⟩ :=
          excludedSubtreeFilesList_dirty (pfx ++ [name]) children p hp
        have hne : rest ≠ [] := by
          intro hnil
          rw [hnil] at hc
          simp at hc
        refine ⟨name :: rest, by simp [hr], c, ?_, hcex⟩
        rw [List.dropLast_cons_of_ne_nil hne]
        exact List.mem_cons_of_mem _ hc
theorem excludedSubtreeFilesList_dirty (pfx : FsPath) (es : FsEntries) :
    ∀ p ∈ excludedSubtreeFilesList pfx es, ∃ rest, p = pfx ++ rest ∧
      ∃ c ∈ rest.dropLast, isExcludedDir c = true := by
  match es with
  | .nil => intro p hp; simp [excludedSubtreeFilesList] at hp
  | .cons e es =>
      intro p hp
      rcases List.mem_append.mp hp with h | h
      · exact excludedSubtreeFiles_dirty pfx e p h
      · exact excludedSubtreeFilesList_dirty pfx es p h
end

theorem excluded_not_visited {pfx : FsPath} {e : FsEntry} {p : FsPath}
    (hp : p ∈ excludedSubtreeFiles pfx e) :
    p ∉ (visitedFiles pfx e).map Prod.snd := by
  intro hv
  obtain ⟨bp, hbp, hbp2⟩ := List.mem_map.mp hv
  obtain ⟨r₁, he₁, c, hc, hcex⟩ := excludedSubtreeFiles_dirty pfx e p hp
  obtain ⟨r₂, he₂, _, hclean⟩ := visitedFiles_clean pfx e bp hbp
  have happ : pfx ++ r₂ = pfx ++ r₁ := by rw [← he₂, hbp2, he₁]
  have hr : r₂ = r₁ := List.append_cancel_left happ
  rw [← hr] at hc
  rw [hclean c hc] at hcex
  exact Bool.false_ne_true hcex

/-! ## Lemmas about the persistence and diff paths -/

theorem save_target_eq (tf : TrackFiles) (fs : QweFS) :
    (Save tf fs).target = some ⟨1, .json (sortByKey tf)⟩ := by
  simp [Save, saveSteps, applySteps, applyStep, serializeTrackFiles]

theorem load_json_eq (s : TrackFiles) :
    LoadTrackedFilesFromFile (some ⟨1, .json s⟩) =
      ⟨.ok (goMapOfList s), some ⟨1, .json s⟩⟩ := rfl

theorem updateTrackedFile_json (id p : String) (fs : QweFS)
    (s : TrackFiles) (h : fs.target = some ⟨1, .json s⟩) :
    UpdateTrackedFile id p fs =
      .ok (Save (mapSet (goMapOfList s) id (NewTrackFile p))
        { fs with target := some ⟨1, .json s⟩ }) := by
  unfold UpdateTrackedFile
  rw [h]
  rfl

theorem diffGuard_true {a b : String} (h : exactlyOneEmpty a b) :
    ((a = "" && b != "") || (a != "" && b = "")) = true := by
  rcases h with ⟨h₁, h₂⟩ | ⟨h₁, h₂⟩ <;> simp [h₁, h₂]

theorem diffGuard_false {a b : String} (h : ¬exactlyOneEmpty a b) :
    ((a = "" && b != "") || (a != "" && b = "")) = false := by
  unfold exactlyOneEmpty at h
  push_neg at h
  by_cases ha : a = "" <;> by_cases hb : b = "" <;> simp [ha, hb] <;> tauto

/-! ## Claims -/

/-- C1 counterexample: loading the registry from an absent file does not
return an empty registry without error; the decompression attempted
first fails, so the call returns an I/O error, exactly as the tracker
test TestLoadTrackedFilesFromFile_NonExistentFile expects. -/
theorem load_absent_file_is_error :
    (LoadTrackedFilesFromFile none).result = Except.error QweError.ioFailure ∧
    (LoadTrackedFilesFromFile none).result ≠ Except.ok [] := by
  decide

/-- C1 (amended): loading from an absent registry file path fails with an
I/O error from the attempted decompression rather than returning an
empty registry (the empty-registry branch after the stat is unreachable
because decompression runs first); a compressed well-formed file loads
into the decoded map; compressed malformed content fails with a parse
error. -/
theorem load_error_behavior :
    (LoadTrackedFilesFromFile none).result = Except.error QweError.ioFailure ∧
    (∀ entries, (LoadTrackedFilesFromFile (some ⟨1, .json entries⟩)).result
        = Except.ok (goMapOfList entries)) ∧
    (LoadTrackedFilesFromFile (some ⟨1, .malformed⟩)).result
        = Except.error QweError.parseFailure :=
  ⟨rfl, fun _ => rfl, rfl⟩

/-- C2 counterexample: a load that fails after decompression (here on
malformed content, failing the JSON parse) returns without re-compressing
the file, leaving it on disk in decompressed form, so the file is not
re-compressed on every exit path. -/
theorem load_failure_leaves_file_decompressed :
    (LoadTrackedFilesFromFile (some ⟨1, .malformed⟩)).result
        = Except.error QweError.parseFailure ∧
    (LoadTrackedFilesFromFile (some ⟨1, .malformed⟩)).file
        = some ⟨0, RegContent.malformed⟩ ∧
    ¬compressedAtRest (LoadTrackedFilesFromFile (some ⟨1, .malformed⟩)).file := by
  decide

/-- C2 (amended): only the successful exit path of
LoadTrackedFilesFromFile re-compresses the registry file: a successful
load returns the file to its compressed at-rest form, but a parse
failure after decompression leaves the file decompressed on disk. -/
theorem load_recompresses_only_on_success :
    (∀ entries, (LoadTrackedFilesFromFile (some ⟨1, .json entries⟩)).file
        = some ⟨1, .json entries⟩ ∧
      compressedAtRest (LoadTrackedFilesFromFile (some ⟨1, .json entries⟩)).file) ∧
    (LoadTrackedFilesFromFile (some ⟨1, .malformed⟩)).file
        = some ⟨0, RegContent.malformed⟩ ∧
    ¬compressedAtRest (LoadTrackedFilesFromFile (some ⟨1, .malformed⟩)).file :=
  ⟨fun _ => ⟨rfl, Nat.zero_lt_one⟩, rfl, by decide⟩

/-- C3 counterexample: InitTrackedFiles does not follow the
temporary-sibling-plus-rename protocol: its step sequence contains no
rename and writes the target path directly, so starting from a fresh
repository directory the target is observable in a truncated
partial-write state during the operation. -/
theorem initTrackedFiles_writes_target_directly :
    FsStep.renameTmpToTarget ∉ initTrackedFilesSteps ∧
    FsStep.writeTarget (.json []) ∈ initTrackedFilesSteps ∧
    some ⟨0, RegContent.truncatedWrite (.json [])⟩ ∈
      targetStates fsEmpty initTrackedFilesSteps := by
  decide

/-- C3 (amended): Save persists through the atomic-write protocol: it
writes the full serialized registry to the temporary sibling and renames
it over the target, so every state the target path takes on during Save
is either the old file or the complete new serialized content (plain
immediately after the rename, compressed after the final in-place
compression), never a partial write.  InitTrackedFiles, by contrast,
writes the empty JSON object directly to the target path with no
temporary file and no rename, exposing a partial-write window before
compressing in place. -/
theorem save_atomic_initTrackedFiles_direct (tf : TrackFiles) (fs : QweFS) :
    (∀ st ∈ targetStates fs (saveSteps tf),
      st = fs.target ∨ st = some ⟨0, serializeTrackFiles tf⟩ ∨
        st = some ⟨1, serializeTrackFiles tf⟩) ∧
    targetStates fs initTrackedFilesSteps =
      [fs.target, some ⟨0, RegContent.truncatedWrite (.json [])⟩,
       some ⟨0, .json []⟩, some ⟨1, .json []⟩] := by
  constructor
  · intro st hst
    simp [targetStates, saveSteps, traceStates, stepMicroStates,
      applyStep] at hst
    tauto
  · simp [targetStates, initTrackedFilesSteps, traceStates,
      stepMicroStates, applyStep]

/-- C3 witness: the amended Save property applied to the empty registry
starting from the fresh filesystem, at the first observable state. -/
theorem save_atomic_initTrackedFiles_direct_witness :
    (none : Option RegFile) = fsEmpty.target ∨
      (none : Option RegFile) = some ⟨0, serializeTrackFiles []⟩ ∨
      (none : Option RegFile) = some ⟨1, serializeTrackFiles []⟩ :=
  (save_atomic_initTrackedFiles_direct [] fsEmpty).1 none (by decide)

/-- C10: a commit message whose byte length exceeds MaxCommitMessageLen
(60) is rendered as exactly its first CommitMessageTruncLen (57) bytes
followed by the three ellipsis bytes, and any other message is rendered
unchanged. -/
theorem truncateMsg_behavior (msg : GoBytes) :
    (msg.length > MaxCommitMessageLen →
      truncateMsg msg = msg.take CommitMessageTruncLen ++ ellipsisBytes) ∧
    (msg.length ≤ MaxCommitMessageLen → truncateMsg msg = msg) := by
  constructor
  · intro h
    simp [truncateMsg, h]
  · intro h
    simp [truncateMsg, Nat.not_lt.mpr h]

/-- C10 witness: the truncation property evaluated on a 61-byte message
and on a 60-byte message. -/
theorem truncateMsg_behavior_witness :
    truncateMsg (List.replicate 61 0) =
      (List.replicate 61 0).take CommitMessageTruncLen ++ ellipsisBytes ∧
    truncateMsg (List.replicate 60 0) = List.replicate 60 0 :=
  ⟨(truncateMsg_behavior (List.replicate 61 0)).1 (by decide),
   (truncateMsg_behavior (List.replicate 60 0)).2 (by decide)⟩

/-- C4: calling GroupInit before the repository is initialized fails with
RepoNotFound; in an initialized repository where the name is not yet
tracked, the first GroupInit succeeds and yields a group with exactly
one Version (commit message Initial Tracking, empty files map), current
set to that version, and versionOrder of length 1, and a second
GroupInit of the same name fails with GrpAlreadyTracked. -/
theorem groupInit_behavior (st : RepoState) (name vid ts vid₂ ts₂ : String) :
    (st.initialized = false →
      GroupInit st name vid ts = .error .repoNotFound) ∧
    (st.initialized = true → mapGet st.groups (Hasher name) = none →
      ∃ st₂ g, GroupInit st name vid ts = .ok st₂ ∧
        mapGet st₂.groups (Hasher name) = some g ∧
        g.versions = [(vid, ⟨"Initial Tracking", ts, []⟩)] ∧
        g.versionOrder = [vid] ∧
        g.current = vid ∧
        mapGet g.versions g.current = some ⟨"Initial Tracking", ts, []⟩ ∧
        GroupInit st₂ name vid₂ ts₂ = .error .grpAlreadyTracked) := by
  constructor
  · intro h
    simp [GroupInit, h]
  · intro hinit hnone
    have hstep : GroupInit st name vid ts = .ok
        { st with groups := mapSet st.groups (Hasher name) (⟨name, [(vid, ⟨"Initial Tracking", ts, []⟩)], [vid], vid⟩ : Group) } := by
      simp [GroupInit, hinit, hnone]
    refine ⟨_, _, hstep, mapGet_mapSet_self _ _ _, rfl, rfl, rfl, ?_, ?_⟩
    · simp [mapGet]
    · simp [GroupInit, hinit, mapGet_mapSet_self]

/-- C4 witness: the behavior evaluated on an uninitialized repository and
on a freshly initialized empty repository with group name g. -/
theorem groupInit_behavior_witness :
    GroupInit ⟨false, []⟩ "g" "v1" "t1" = .error .repoNotFound ∧
    ∃ st₂ g, GroupInit ⟨true, []⟩ "g" "v1" "t1" = .ok st₂ ∧
      mapGet st₂.groups (Hasher "g") = some g ∧
      g.versions = [("v1", ⟨"Initial Tracking", "t1", []⟩)] ∧
      g.versionOrder = ["v1"] ∧
      g.current = "v1" ∧
      mapGet g.versions g.current = some ⟨"Initial Tracking", "t1", []⟩ ∧
      GroupInit st₂ "g" "v2" "t2" = .error .grpAlreadyTracked :=
  ⟨(groupInit_behavior ⟨false, []⟩ "g" "v1" "t1" "v2" "t2").1 rfl,
   (groupInit_behavior ⟨true, []⟩ "g" "v1" "t1" "v2" "t2").2 rfl rfl⟩

/-- C5: Diff fails with the argument-mismatch sentinel exactly when one
of the two version ids is empty and the other non-empty; with both
empty or both non-empty the result is never the argument-mismatch
error, whatever else it may be. -/
theorem diff_argument_validation (st : RepoState) (reg : TrackFiles)
    (path a b : String) :
    (exactlyOneEmpty a b →
      Diff st reg path a b = .error .argumentMismatch) ∧
    (¬exactlyOneEmpty a b →
      Diff st reg path a b ≠ .error .argumentMismatch) := by
  constructor
  · intro h
    unfold Diff
    rw [diffGuard_true h]
    simp
  · intro h hcontra
    unfold Diff at hcontra
    rw [diffGuard_false h] at hcontra
    simp only [Bool.false_eq_true, if_false] at hcontra
    split at hcontra
    · simp at hcontra
    · split at hcontra
      · simp at hcontra
      · split at hcontra
        · simp at hcontra
        · split at hcontra
          · simp at hcontra
          · simp at hcontra
          · split at hcontra <;> simp at hcontra

/-- C5 witness: the four argument shapes of the diff tests. -/
theorem diff_argument_validation_witness :
    Diff ⟨false, []⟩ [] "test.txt" "" "1" = .error .argumentMismatch ∧
    Diff ⟨false, []⟩ [] "test.txt" "1" "" = .error .argumentMismatch ∧
    Diff ⟨false, []⟩ [] "test.txt" "" "" ≠ .error .argumentMismatch ∧
    Diff ⟨false, []⟩ [] "test.txt" "1" "2" ≠ .error .argumentMismatch :=
  ⟨(diff_argument_validation ⟨false, []⟩ [] "test.txt" "" "1").1
      (Or.inl ⟨rfl, by decide⟩),
   (diff_argument_validation ⟨false, []⟩ [] "test.txt" "1" "").1
      (Or.inr ⟨by decide, rfl⟩),
   (diff_argument_validation ⟨false, []⟩ [] "test.txt" "" "").2
      (by simp [exactlyOneEmpty]),
   (diff_argument_validation ⟨false, []⟩ [] "test.txt" "1" "2").2
      (by simp [exactlyOneEmpty])⟩

/-- C6: in an initialized repository, with well-shaped version arguments
(both empty or both non-empty), Diff on a file whose Identifier has no
record in the tracker registry fails with FileNotTracked. -/
theorem diff_untracked_file (st : RepoState) (reg : TrackFiles)
    (path a b : String) (hinit : st.initialized = true)
    (hshape : ¬exactlyOneEmpty a b)
    (hreg : mapGet reg (Hasher (baseName path)) = none) :
    Diff st reg path a b = .error .fileNotTracked := by
  unfold Diff
  rw [diffGuard_false hshape, hreg]
  simp [hinit]

/-- C6 witness: the untracked-file case of the diff tests, with both
version ids empty in a freshly initialized repository. -/
theorem diff_untracked_file_witness :
    Diff ⟨true, []⟩ [] "untracked.txt" "" "" = .error .fileNotTracked :=
  diff_untracked_file ⟨true, []⟩ [] "untracked.txt" "" "" rfl
    (by simp [exactlyOneEmpty]) rfl

/-- C7: starting from a well-formed registry file, UpdateTrackedFile of
id with p₁ and then with p₂ succeeds, and the registry produced on disk
holds exactly one record keyed by id, whose path is p₂ (a last-write-wins
overwrite, not an appended second record). -/
theorem updateTrackedFile_overwrites (id p₁ p₂ : String)
    (entries : TrackFiles) (fs : QweFS)
    (htgt : fs.target = some ⟨1, .json entries⟩)
    (hnd : NodupKeys entries) :
    ∃ fs₁ fs₂ final,
      UpdateTrackedFile id p₁ fs = .ok fs₁ ∧
      UpdateTrackedFile id p₂ fs₁ = .ok fs₂ ∧
      (LoadTrackedFilesFromFile fs₂.target).result = Except.ok final ∧
      countKey final id = 1 ∧
      mapGet final id = some (NewTrackFile p₂) := by
  have hstep₁ := updateTrackedFile_json id p₁ fs entries htgt
  rw [goMapOfList_of_nodupKeys hnd] at hstep₁
  have hnd₁ : NodupKeys (mapSet entries id (NewTrackFile p₁)) :=
    nodupKeys_mapSet _ _ hnd
  have hnds₁ : NodupKeys (sortByKey (mapSet entries id (NewTrackFile p₁))) :=
    nodupKeys_of_perm (sortByKey_perm _).symm hnd₁
  have htgt₁ := save_target_eq (mapSet entries id (NewTrackFile p₁))
    { fs with target := some ⟨1, .json entries⟩ }
  have hstep₂ := updateTrackedFile_json id p₂ _ _ htgt₁
  rw [goMapOfList_of_nodupKeys hnds₁] at hstep₂
  have hnd₂ : NodupKeys (mapSet (sortByKey (mapSet entries id
      (NewTrackFile p₁))) id (NewTrackFile p₂)) :=
    nodupKeys_mapSet _ _ hnds₁
  have hnds₂ : NodupKeys (sortByKey (mapSet (sortByKey (mapSet entries id
      (NewTrackFile p₁))) id (NewTrackFile p₂))) :=
    nodupKeys_of_perm (sortByKey_perm _).symm hnd₂
  refine ⟨_, _, sortByKey (mapSet (sortByKey (mapSet entries id
      (NewTrackFile p₁))) id (NewTrackFile p₂)), hstep₁, hstep₂, ?_, ?_, ?_⟩
  · rw [save_target_eq, load_json_eq, goMapOfList_of_nodupKeys hnds₂]
  · rw [countKey_eq_of_perm (sortByKey_perm _) id]
    exact countKey_mapSet_self id _ hnds₁
  · rw [mapGet_eq_of_perm (sortByKey_perm _) hnds₂ id]
    exact mapGet_mapSet_self _ _ _

/-- C7 witness: the double update applied to the freshly initialized
empty registry file. -/
theorem updateTrackedFile_overwrites_witness :
    ∃ fs₁ fs₂ final,
      UpdateTrackedFile "f1" "a.txt" ⟨some ⟨1, .json []⟩, none⟩ = .ok fs₁ ∧
      UpdateTrackedFile "f1" "b.txt" fs₁ = .ok fs₂ ∧
      (LoadTrackedFilesFromFile fs₂.target).result = Except.ok final ∧
      countKey final "f1" = 1 ∧
      mapGet final "f1" = some (NewTrackFile "b.txt") :=
  updateTrackedFile_overwrites "f1" "a.txt" "b.txt" [] ⟨some ⟨1, .json []⟩, none⟩
    rfl (by decide)

/-- C8: saving a registry of records with distinct identifiers and
loading it back yields a registry of exactly the same size whose records
are a permutation of the originals and whose lookup agrees with the
original at every key, independent of insertion order. -/
theorem save_load_roundtrip (tf : TrackFiles) (fs : QweFS)
    (hnd : NodupKeys tf) :
    ∃ m, (LoadTrackedFilesFromFile (Save tf fs).target).result
        = Except.ok m ∧
      m.length = tf.length ∧ m.Perm tf ∧
      ∀ k, mapGet m k = mapGet tf k := by
  have hperm := sortByKey_perm tf
  have hnds : NodupKeys (sortByKey tf) := nodupKeys_of_perm hperm.symm hnd
  refine ⟨sortByKey tf, ?_, hperm.length_eq, hperm,
    fun k => mapGet_eq_of_perm hperm hnds k⟩
  rw [save_target_eq, load_json_eq, goMapOfList_of_nodupKeys hnds]

/-- C8 witness: the round trip on a two-record registry saved into the
fresh filesystem. -/
theorem save_load_roundtrip_witness :
    ∃ m, (LoadTrackedFilesFromFile
        (Save [("b", ⟨"pb"⟩), ("a", ⟨"pa"⟩)] fsEmpty).target).result
        = Except.ok m ∧
      m.length = ([("b", ⟨"pb"⟩), ("a", ⟨"pa"⟩)] : TrackFiles).length ∧
      m.Perm [("b", ⟨"pb"⟩), ("a", ⟨"pa"⟩)] ∧
      ∀ k, mapGet m k = mapGet [("b", ⟨"pb"⟩), ("a", ⟨"pa"⟩)] k :=
  save_load_roundtrip [("b", ⟨"pb"⟩), ("a", ⟨"pa"⟩)] fsEmpty (by decide)

/-- C9: a file lying beneath an excluded control directory (the reserved
qwe directory or the version-control metadata directory) is never
visited by the directory walk of findTrackedFilesInCurrDir and never
recorded in the registry it returns. -/
theorem scan_never_records_excluded (tracker : List Identifier)
    (pfx : FsPath) (e : FsEntry) (p : FsPath)
    (hp : p ∈ excludedSubtreeFiles pfx e) :
    p ∉ (visitedFiles pfx e).map Prod.snd ∧
    ∀ id, mapGet (findTrackedFilesInCurrDir tracker pfx e) id ≠ some p := by
  refine ⟨excluded_not_visited hp, fun id hid => ?_⟩
  unfold findTrackedFilesInCurrDir at hid
  have hmem := mapGet_goMapOfList_mem hid
  simp [scanRecords] at hmem
  obtain ⟨a, b, hvis, -, -, hbp⟩ := hmem
  exact excluded_not_visited hp (List.mem_map.mpr ⟨(a, b), hvis, hbp⟩)

/-- C9 witness: a tree whose root holds an excluded .git directory with
one file beneath it; that file is neither visited nor recorded even
though its Identifier is known to the tracker. -/
theorem scan_never_records_excluded_witness :
    (["root", ".git", "a"] : FsPath) ∉
      (visitedFiles [] (.dir "root" (.cons (.dir ".git"
        (.cons (.file "a") .nil)) (.cons (.file "b") .nil)))).map Prod.snd ∧
    ∀ id, mapGet (findTrackedFilesInCurrDir [Hasher "a", Hasher "b"] []
      (.dir "root" (.cons (.dir ".git" (.cons (.file "a") .nil))
        (.cons (.file "b") .nil)))) id ≠ some ["root", ".git", "a"] :=
  scan_never_records_excluded [Hasher "a", Hasher "b"] []
    (.dir "root" (.cons (.dir ".git" (.cons (.file "a") .nil))
      (.cons (.file "b") .nil))) ["root", ".git", "a"] (by decide)

end Qwe
